import Mathlib

/-!
Verification of the TreePickupOptimizer core (src/tree_pickup) against its
natural-language specification.

The embedding follows the Python source:
* `models.py` — `Coordinate`, `Address` (pydantic models, equality by fields);
* `clusterer.py` — `Clusterer._redistribute_addresses`,
  `Clusterer._assign_colors_optimally`, the orchestration in
  `Clusterer.cluster_addresses`;
* `mst.py` — `calculate_mst_distance`;
* `validators.py` — `detect_outliers`, `validate_capacity`.

Floating-point quantities are embedded as exact rationals (`ℚ`).  The
haversine great-circle distance uses transcendental functions, so every
definition that consumes distances takes the distance function as an explicit
parameter `dist : Coordinate → Coordinate → ℚ`; theorems about membership,
sizes and control flow hold for every such function, hence in particular for
the source's `haversine_distance`.
-/

/-- `models.Coordinate`: a latitude/longitude pair (floats in the source,
embedded as rationals). -/
structure Coordinate where
  latitude : ℚ
  longitude : ℚ
deriving DecidableEq

/-- `models.Address`: an address string, an optional geocoded coordinate and
a 1-based address number.  pydantic compares model instances field by field,
which matches the derived decidable equality. -/
structure Address where
  address_string : String
  coordinate : Option Coordinate
  address_number : Int
deriving DecidableEq

/-- The coordinate of an address that the clusterer assumes to be geocoded
(`addr.coordinate` is accessed unconditionally in `clusterer.py`). -/
def coordD (a : Address) : Coordinate :=
  a.coordinate.getD ⟨0, 0⟩

/-- A degenerate distance function, used to instantiate distance-parametric
theorems at inputs where all coordinates coincide: the source's
`haversine_distance` short-circuits to exactly `0.0` on equal coordinates, so
on such inputs it agrees pointwise with the constant-zero function. -/
def distZero : Coordinate → Coordinate → ℚ := fun _ _ => 0

/-- Centroid of a group, as computed inside `_redistribute_addresses`
(lines 176–185): the mean latitude and mean longitude of its members; absent
for an empty group (the Python `centroids` dict has no entry for it). -/
def centroidOf (g : List Address) : Option Coordinate :=
  if g.isEmpty then none
  else some ⟨((g.map (fun a => (coordD a).latitude)).sum) / g.length,
             ((g.map (fun a => (coordD a).longitude)).sum) / g.length⟩

/-- The indices of groups exceeding the capacity bound, in index order
(`overloaded_teams` in `_redistribute_addresses`; dict iteration runs over
keys `0..K-1` in insertion order). -/
def overloadedIdxs (groups : List (List Address)) (mt : Nat) : List Nat :=
  (List.range groups.length).filter (fun i => mt < (groups.getD i []).length)

/-- `most_overloaded = max(overloaded_teams, key=...)`: Python's `max` keeps
the current best unless a later key is strictly greater, so it returns the
first index of maximal size. -/
def mostOverloaded (groups : List (List Address)) (mt : Nat) : Nat :=
  match overloadedIdxs groups mt with
  | [] => 0
  | i :: rest =>
      rest.foldl
        (fun acc j =>
          if (groups.getD acc []).length < (groups.getD j []).length then j else acc)
        i

/-- One pass of the inner target scan of `_redistribute_addresses`
(lines 191–202) for a fixed source address: for every `target_team` with
`target_team ≠ most_overloaded` and size `< max_trees`, the candidate
distance is the distance to the target's centroid, or `0.0` for a target
with no centroid (an empty group); the best triple is replaced exactly when
the new distance is strictly smaller (`best_distance` starts at `inf`,
modelled by the `none` accumulator). -/
def pickUpd (dist : Coordinate → Coordinate → ℚ) (groups : List (List Address))
    (mt mo : Nat) (addr : Address) (best : Option (Address × Nat × ℚ)) (t : Nat) :
    Option (Address × Nat × ℚ) :=
  if t ≠ mo ∧ (groups.getD t []).length < mt then
    let d := match centroidOf (groups.getD t []) with
      | some cen => dist (coordD addr) cen
      | none => 0
    match best with
    | none => some (addr, t, d)
    | some (a0, t0, d0) => if d < d0 then some (addr, t, d) else some (a0, t0, d0)
  else best

def pickAcc (dist : Coordinate → Coordinate → ℚ) (groups : List (List Address))
    (mt mo : Nat) (addr : Address) (acc : Option (Address × Nat × ℚ)) :
    Option (Address × Nat × ℚ) :=
  (List.range groups.length).foldl (pickUpd dist groups mt mo addr) acc

/-- The full best-move search of one loop iteration: every address of the
most overloaded group crossed with every candidate target, in source order. -/
def pickBest (dist : Coordinate → Coordinate → ℚ) (groups : List (List Address))
    (mt mo : Nat) : Option (Address × Nat × ℚ) :=
  (groups.getD mo []).foldl (fun acc addr => pickAcc dist groups mt mo addr acc) none

/-- The state change of one move (lines 211–212): remove the first occurrence
of the chosen address from the source group, append it to the target group. -/
def applyMove (groups : List (List Address)) (mo t : Nat) (a : Address) :
    List (List Address) :=
  let groups1 := groups.set mo ((groups.getD mo []).erase a)
  groups1.set t ((groups1.getD t []) ++ [a])

/-- One iteration of the redistribution loop body (lines 173–212): pick the
most overloaded group, search for the best (address, target) pair, and either
perform the move or fail (`sys.exit(1)` when no valid move exists, modelled
as `none`). -/
def loopStep (dist : Coordinate → Coordinate → ℚ) (groups : List (List Address))
    (mt : Nat) : Option (List (List Address)) :=
  let mo := mostOverloaded groups mt
  match pickBest dist groups mt mo with
  | none => none
  | some (a, t, _) => some (applyMove groups mo t a)

/-- The `while` loop of `_redistribute_addresses` (lines 169–214):
`while any(len(g) > max_trees) and iteration_count < 1000`.  The extra fuel
argument makes the recursion structural; `redistribute` calls it with fuel
`1000`, and since the loop guard `iteration_count < 1000` bounds the number
of iterations by `1000` anyway, the fuel never cuts a run short. -/
def redistributeLoopF (dist : Coordinate → Coordinate → ℚ) (mt : Nat) :
    Nat → Nat → List (List Address) → Option (List (List Address) × Nat)
  | 0, c, gs => some (gs, c)
  | fuel + 1, c, gs =>
      if (gs.any fun g => decide (mt < g.length)) && decide (c < 1000) then
        match loopStep dist gs mt with
        | none => none
        | some g' => redistributeLoopF dist mt fuel (c + 1) g'
      else some (gs, c)

/-- `Clusterer._redistribute_addresses` (clusterer.py lines 133–229).
The Python dict `team_assignments` with keys `0..K-1` is embedded as a list
of groups indexed by position.  `none` models `sys.exit(1)`; on success the
result carries the final groups together with the number of loop iterations
performed. -/
def redistribute (dist : Coordinate → Coordinate → ℚ)
    (groups : List (List Address)) (mt : Nat) :
    Option (List (List Address) × Nat) :=
  if (groups.any fun g => decide (mt < g.length)) = false then some (groups, 0)
  else if groups.length = 1 then none
  else if groups.all (fun g => decide (mt ≤ g.length)) then none
  else
    match redistributeLoopF dist mt 1000 0 groups with
    | none => none
    | some (g', c) => if 1000 ≤ c then none else some (g', c)

/-- Total capacity excess of a configuration: the sum over groups of how far
each exceeds the bound (truncated at zero). -/
def excess (groups : List (List Address)) (mt : Nat) : Nat :=
  (groups.map (fun g => g.length - mt)).sum

theorem getD_set_self {α : Type} (l : List α) (i : Nat) (v d : α) (h : i < l.length) :
    (l.set i v).getD i d = v := by
  rw [List.getD_eq_getElem?_getD, List.getElem?_set_self h]; rfl

theorem getD_set_ne {α : Type} (l : List α) {i j : Nat} (v d : α) (h : i ≠ j) :
    (l.set i v).getD j d = l.getD j d := by
  rw [List.getD_eq_getElem?_getD, List.getElem?_set_ne h, ← List.getD_eq_getElem?_getD]

theorem flatten_set_append {α : Type} (a : α) :
    ∀ (l : List (List α)) (t : Nat), t < l.length →
      (l.set t ((l.getD t []) ++ [a])).flatten.Perm (a :: l.flatten)
  | [], t, h => by simp at h
  | x :: xs, 0, _ => by
      simp only [List.set_cons_zero, List.getD_cons_zero, List.flatten_cons,
        List.append_assoc, List.singleton_append]
      exact List.perm_middle
  | x :: xs, t + 1, h => by
      have ih := flatten_set_append a xs t (Nat.lt_of_succ_lt_succ h)
      simp only [List.set_cons_succ, List.getD_cons_succ, List.flatten_cons]
      exact (ih.append_left x).trans List.perm_middle

theorem flatten_set_erase {α : Type} [DecidableEq α] (a : α) :
    ∀ (l : List (List α)) (i : Nat), i < l.length → a ∈ l.getD i [] →
      (a :: (l.set i ((l.getD i []).erase a)).flatten).Perm l.flatten
  | [], i, h, _ => by simp at h
  | x :: xs, 0, _, hmem => by
      simp only [List.getD_cons_zero] at hmem ⊢
      simp only [List.set_cons_zero, List.flatten_cons]
      exact ((List.perm_cons_erase hmem).append_right xs.flatten).symm
  | x :: xs, i + 1, h, hmem => by
      have ih := flatten_set_erase a xs i (by simpa using Nat.lt_of_succ_lt_succ h)
        (by simpa using hmem)
      simp only [List.set_cons_succ, List.getD_cons_succ, List.flatten_cons]
      exact List.perm_middle.symm.trans (ih.append_left x)

theorem applyMove_flatten_perm (groups : List (List Address)) (mo t : Nat) (a : Address)
    (hmo : mo < groups.length) (ht : t < groups.length)
    (hmem : a ∈ groups.getD mo []) :
    (applyMove groups mo t a).flatten.Perm groups.flatten := by
  unfold applyMove
  have h1 : t < (groups.set mo ((groups.getD mo []).erase a)).length := by
    simpa using ht
  refine (flatten_set_append a _ t h1).trans ?_
  exact flatten_set_erase a groups mo hmo hmem

theorem applyMove_length (groups : List (List Address)) (mo t : Nat) (a : Address) :
    (applyMove groups mo t a).length = groups.length := by
  simp [applyMove]

theorem map_sum_set (f : List Address → Nat) :
    ∀ (l : List (List Address)) (i : Nat) (v : List Address), i < l.length →
      ((l.set i v).map f).sum + f (l.getD i []) = (l.map f).sum + f v
  | [], i, v, h => by simp at h
  | x :: xs, 0, v, _ => by
      simp only [List.set_cons_zero, List.map_cons, List.sum_cons, List.getD_cons_zero]
      omega
  | x :: xs, i + 1, v, h => by
      have ih := map_sum_set f xs i v (by simpa using Nat.lt_of_succ_lt_succ h)
      simp only [List.set_cons_succ, List.map_cons, List.sum_cons, List.getD_cons_succ]
      omega

theorem foldl_pick_mem (groups : List (List Address)) :
    ∀ (rest : List Nat) (i : Nat),
      (rest.foldl
        (fun acc j =>
          if (groups.getD acc []).length < (groups.getD j []).length then j else acc)
        i) = i ∨
      (rest.foldl
        (fun acc j =>
          if (groups.getD acc []).length < (groups.getD j []).length then j else acc)
        i) ∈ rest
  | [], i => Or.inl rfl
  | x :: xs, i => by
      simp only [List.foldl_cons]
      rcases foldl_pick_mem groups xs
          (if (groups.getD i []).length < (groups.getD x []).length then x else i) with h | h
      · rw [h]
        split
        · exact Or.inr (List.mem_cons_self x xs)
        · exact Or.inl rfl
      · exact Or.inr (List.mem_cons_of_mem x h)

theorem overloadedIdxs_ne_nil (groups : List (List Address)) (mt : Nat)
    (h : (groups.any fun g => decide (mt < g.length)) = true) :
    overloadedIdxs groups mt ≠ [] := by
  rw [List.any_eq_true] at h
  obtain ⟨g, hg, hlen⟩ := h
  obtain ⟨n, hn, rfl⟩ := List.mem_iff_getElem.mp hg
  have hmem : n ∈ overloadedIdxs groups mt := by
    rw [overloadedIdxs, List.mem_filter]
    refine ⟨List.mem_range.mpr hn, ?_⟩
    rw [List.getD_eq_getElem _ _ hn]
    exact hlen
  intro hnil
  rw [hnil] at hmem
  exact List.not_mem_nil _ hmem

theorem mostOverloaded_spec (groups : List (List Address)) (mt : Nat)
    (h : (groups.any fun g => decide (mt < g.length)) = true) :
    mostOverloaded groups mt < groups.length ∧
      mt < (groups.getD (mostOverloaded groups mt) []).length := by
  have hne := overloadedIdxs_ne_nil groups mt h
  unfold mostOverloaded
  cases ho : overloadedIdxs groups mt with
  | nil => exact absurd ho hne
  | cons i rest =>
      have hmem : (rest.foldl
          (fun acc j =>
            if (groups.getD acc []).length < (groups.getD j []).length then j else acc)
          i) ∈ overloadedIdxs groups mt := by
        rw [ho]
        rcases foldl_pick_mem groups rest i with h1 | h1
        · rw [h1]; exact List.mem_cons_self i rest
        · exact List.mem_cons_of_mem i h1
      rw [overloadedIdxs, List.mem_filter, List.mem_range] at hmem
      exact ⟨hmem.1, of_decide_eq_true hmem.2⟩

def PickInv (groups : List (List Address)) (mt mo : Nat) (src : List Address) :
    Option (Address × Nat × ℚ) → Prop
  | none => True
  | some (a, t, _) => a ∈ src ∧ t < groups.length ∧ (groups.getD t []).length < mt ∧ t ≠ mo

theorem pickUpd_inv (dist : Coordinate → Coordinate → ℚ) (groups : List (List Address))
    (mt mo : Nat) (addr : Address) (src : List Address) (t : Nat)
    (haddr : addr ∈ src) (ht : t < groups.length)
    (acc : Option (Address × Nat × ℚ)) (hacc : PickInv groups mt mo src acc) :
    PickInv groups mt mo src (pickUpd dist groups mt mo addr acc t) := by
  unfold pickUpd
  split
  · rename_i hcond
    match acc with
    | none => exact ⟨haddr, ht, hcond.2, hcond.1⟩
    | some (a0, t0, d0) =>
        simp only
        split
        · exact ⟨haddr, ht, hcond.2, hcond.1⟩
        · exact hacc
  · exact hacc

theorem foldl_pickUpd_inv (dist : Coordinate → Coordinate → ℚ)
    (groups : List (List Address)) (mt mo : Nat) (addr : Address) (src : List Address)
    (haddr : addr ∈ src) :
    ∀ (L : List Nat), (∀ t ∈ L, t < groups.length) →
      ∀ acc, PickInv groups mt mo src acc →
        PickInv groups mt mo src (L.foldl (pickUpd dist groups mt mo addr) acc)
  | [], _, acc, hacc => hacc
  | x :: xs, hL, acc, hacc => by
      rw [List.foldl_cons]
      exact foldl_pickUpd_inv dist groups mt mo addr src haddr xs
        (fun t ht => hL t (List.mem_cons_of_mem x ht))
        _ (pickUpd_inv dist groups mt mo addr src x haddr
            (hL x (List.mem_cons_self x xs)) acc hacc)

theorem pickAcc_inv (dist : Coordinate → Coordinate → ℚ) (groups : List (List Address))
    (mt mo : Nat) (addr : Address) (src : List Address) (haddr : addr ∈ src)
    (acc : Option (Address × Nat × ℚ)) (hacc : PickInv groups mt mo src acc) :
    PickInv groups mt mo src (pickAcc dist groups mt mo addr acc) :=
  foldl_pickUpd_inv dist groups mt mo addr src haddr (List.range groups.length)
    (fun _ ht => List.mem_range.mp ht) acc hacc

theorem foldl_pickAcc_inv (dist : Coordinate → Coordinate → ℚ)
    (groups : List (List Address)) (mt mo : Nat) (src : List Address) :
    ∀ (L : List Address), (∀ x ∈ L, x ∈ src) →
      ∀ acc, PickInv groups mt mo src acc →
        PickInv groups mt mo src
          (L.foldl (fun acc addr => pickAcc dist groups mt mo addr acc) acc)
  | [], _, acc, hacc => hacc
  | x :: xs, hL, acc, hacc => by
      rw [List.foldl_cons]
      exact foldl_pickAcc_inv dist groups mt mo src xs
        (fun y hy => hL y (List.mem_cons_of_mem x hy))
        _ (pickAcc_inv dist groups mt mo x src (hL x (List.mem_cons_self x xs)) acc hacc)

theorem pickBest_spec (dist : Coordinate → Coordinate → ℚ) (groups : List (List Address))
    (mt mo : Nat) (a : Address) (t : Nat) (d : ℚ)
    (h : pickBest dist groups mt mo = some (a, t, d)) :
    a ∈ groups.getD mo [] ∧ t < groups.length ∧
      (groups.getD t []).length < mt ∧ t ≠ mo := by
  have := foldl_pickAcc_inv dist groups mt mo (groups.getD mo [])
    (groups.getD mo []) (fun x hx => hx) none trivial
  rw [pickBest] at h
  rw [h] at this
  exact this

theorem pickUpd_isSome_mono (dist : Coordinate → Coordinate → ℚ)
    (groups : List (List Address)) (mt mo : Nat) (addr : Address) (t : Nat)
    (acc : Option (Address × Nat × ℚ)) (hacc : acc.isSome = true) :
    (pickUpd dist groups mt mo addr acc t).isSome = true := by
  unfold pickUpd
  split
  · match acc with
    | none => simp
    | some (a0, t0, d0) =>
        simp only
        split <;> simp
  · exact hacc

theorem pickUpd_isSome_hit (dist : Coordinate → Coordinate → ℚ)
    (groups : List (List Address)) (mt mo : Nat) (addr : Address) (t : Nat)
    (ht : t ≠ mo) (hlt : (groups.getD t []).length < mt)
    (acc : Option (Address × Nat × ℚ)) :
    (pickUpd dist groups mt mo addr acc t).isSome = true := by
  unfold pickUpd
  rw [if_pos ⟨ht, hlt⟩]
  match acc with
  | none => simp
  | some (a0, t0, d0) =>
      simp only
      split <;> simp

theorem foldl_pickUpd_isSome_mono (dist : Coordinate → Coordinate → ℚ)
    (groups : List (List Address)) (mt mo : Nat) (addr : Address) :
    ∀ (L : List Nat) (acc : Option (Address × Nat × ℚ)), acc.isSome = true →
      ((L.foldl (pickUpd dist groups mt mo addr) acc)).isSome = true
  | [], acc, hacc => hacc
  | x :: xs, acc, hacc => by
      rw [List.foldl_cons]
      exact foldl_pickUpd_isSome_mono dist groups mt mo addr xs _
        (pickUpd_isSome_mono dist groups mt mo addr x acc hacc)

theorem foldl_pickUpd_isSome_hit (dist : Coordinate → Coordinate → ℚ)
    (groups : List (List Address)) (mt mo : Nat) (addr : Address) (t0 : Nat)
    (ht0 : t0 ≠ mo) (hlt : (groups.getD t0 []).length < mt) :
    ∀ (L : List Nat), t0 ∈ L → ∀ (acc : Option (Address × Nat × ℚ)),
      ((L.foldl (pickUpd dist groups mt mo addr) acc)).isSome = true
  | [], hmem, _ => absurd hmem (List.not_mem_nil t0)
  | x :: xs, hmem, acc => by
      rw [List.foldl_cons]
      rcases List.mem_cons.mp hmem with rfl | hmem'
      · exact foldl_pickUpd_isSome_mono dist groups mt mo addr xs _
          (pickUpd_isSome_hit dist groups mt mo addr t0 ht0 hlt acc)
      · exact foldl_pickUpd_isSome_hit dist groups mt mo addr t0 ht0 hlt xs hmem' _

theorem pickAcc_isSome_mono (dist : Coordinate → Coordinate → ℚ)
    (groups : List (List Address)) (mt mo : Nat) (addr : Address)
    (acc : Option (Address × Nat × ℚ)) (hacc : acc.isSome = true) :
    (pickAcc dist groups mt mo addr acc).isSome = true :=
  foldl_pickUpd_isSome_mono dist groups mt mo addr (List.range groups.length) acc hacc

theorem foldl_pickAcc_isSome_mono (dist : Coordinate → Coordinate → ℚ)
    (groups : List (List Address)) (mt mo : Nat) :
    ∀ (L : List Address) (acc : Option (Address × Nat × ℚ)), acc.isSome = true →
      ((L.foldl (fun acc addr => pickAcc dist groups mt mo addr acc) acc)).isSome = true
  | [], acc, hacc => hacc
  | x :: xs, acc, hacc => by
      rw [List.foldl_cons]
      exact foldl_pickAcc_isSome_mono dist groups mt mo xs _
        (pickAcc_isSome_mono dist groups mt mo x acc hacc)

theorem pickBest_isSome (dist : Coordinate → Coordinate → ℚ)
    (groups : List (List Address)) (mt mo : Nat)
    (hsrc : groups.getD mo [] ≠ [])
    (t0 : Nat) (ht0 : t0 < groups.length) (hne : t0 ≠ mo)
    (hlt : (groups.getD t0 []).length < mt) :
    (pickBest dist groups mt mo).isSome = true := by
  obtain ⟨a, rest, hcons⟩ := List.exists_cons_of_ne_nil hsrc
  rw [pickBest, hcons, List.foldl_cons]
  apply foldl_pickAcc_isSome_mono
  exact foldl_pickUpd_isSome_hit dist groups mt mo a t0 hne hlt
    (List.range groups.length) (List.mem_range.mpr ht0) none

theorem loopStep_elim (dist : Coordinate → Coordinate → ℚ)
    (groups : List (List Address)) (mt : Nat) (g' : List (List Address))
    (h : loopStep dist groups mt = some g') :
    ∃ a t d, pickBest dist groups mt (mostOverloaded groups mt) = some (a, t, d) ∧
      g' = applyMove groups (mostOverloaded groups mt) t a := by
  rw [loopStep] at h
  rcases hp : pickBest dist groups mt (mostOverloaded groups mt) with _ | ⟨a, t, d⟩
  · rw [hp] at h; exact absurd h (by simp)
  · rw [hp] at h
    simp only [Option.some.injEq] at h
    exact ⟨a, t, d, rfl, h.symm⟩

theorem loopStep_perm (dist : Coordinate → Coordinate → ℚ)
    (groups : List (List Address)) (mt : Nat) (g' : List (List Address))
    (hany : (groups.any fun g => decide (mt < g.length)) = true)
    (h : loopStep dist groups mt = some g') :
    g'.flatten.Perm groups.flatten := by
  obtain ⟨a, t, d, hp, rfl⟩ := loopStep_elim dist groups mt g' h
  obtain ⟨hmem, ht, _, _⟩ := pickBest_spec dist groups mt _ a t d hp
  exact applyMove_flatten_perm groups _ t a (mostOverloaded_spec groups mt hany).1 ht hmem

theorem loopStep_length (dist : Coordinate → Coordinate → ℚ)
    (groups : List (List Address)) (mt : Nat) (g' : List (List Address))
    (h : loopStep dist groups mt = some g') :
    g'.length = groups.length := by
  obtain ⟨a, t, d, _, rfl⟩ := loopStep_elim dist groups mt g' h
  exact applyMove_length groups _ t a

theorem applyMove_eq (groups : List (List Address)) (mo t : Nat) (a : Address)
    (hne : t ≠ mo) :
    applyMove groups mo t a =
      (groups.set mo ((groups.getD mo []).erase a)).set t ((groups.getD t []) ++ [a]) := by
  simp only [applyMove]
  rw [getD_set_ne groups _ _ (fun hmt => hne hmt.symm)]

theorem excess_applyMove (groups : List (List Address)) (mo t : Nat) (a : Address)
    (mt : Nat) (hmo : mo < groups.length) (ht : t < groups.length) (hne : t ≠ mo)
    (hover : mt < (groups.getD mo []).length) (hunder : (groups.getD t []).length < mt)
    (hmem : a ∈ groups.getD mo []) :
    excess (applyMove groups mo t a) mt + 1 = excess groups mt := by
  rw [applyMove_eq groups mo t a hne]
  unfold excess
  have h1len : t < (groups.set mo ((groups.getD mo []).erase a)).length := by simpa using ht
  have e1 := map_sum_set (fun g => g.length - mt)
    (groups.set mo ((groups.getD mo []).erase a)) t
    ((groups.getD t []) ++ [a]) h1len
  have e2 := map_sum_set (fun g => g.length - mt) groups mo
    ((groups.getD mo []).erase a) hmo
  beta_reduce at e1 e2
  have hgt : (groups.set mo ((groups.getD mo []).erase a)).getD t [] = groups.getD t [] :=
    getD_set_ne groups _ _ (fun hmt => hne hmt.symm)
  rw [hgt] at e1
  have herase : ((groups.getD mo []).erase a).length = (groups.getD mo []).length - 1 :=
    List.length_erase_of_mem hmem
  rw [herase] at e2
  simp only [List.length_append, List.length_cons, List.length_nil] at e1
  omega

theorem excess_eq_zero_iff (groups : List (List Address)) (mt : Nat) :
    excess groups mt = 0 ↔ (groups.any fun g => decide (mt < g.length)) = false := by
  rw [excess, List.sum_eq_zero_iff, List.any_eq_false]
  constructor
  · intro h g hg
    have := h (g.length - mt) (List.mem_map_of_mem _ hg)
    simp only [decide_eq_true_eq]
    omega
  · intro h x hx
    obtain ⟨g, hg, rfl⟩ := List.mem_map.mp hx
    have := h g hg
    simp only [decide_eq_true_eq] at this
    omega

theorem sum_lower (mt : Nat) :
    ∀ (l : List Nat), (∀ j, j < l.length → mt ≤ l.getD j 0) → l.length * mt ≤ l.sum
  | [], _ => by simp
  | x :: xs, h => by
      have hx : mt ≤ x := h 0 (by simp)
      have ih := sum_lower mt xs (fun j hj => h (j + 1) (by simpa using hj))
      simp only [List.length_cons, List.sum_cons]
      calc (xs.length + 1) * mt = xs.length * mt + mt := by ring
        _ ≤ xs.sum + x := Nat.add_le_add ih hx
        _ = x + xs.sum := by omega

theorem sum_lower_strict (mt : Nat) :
    ∀ (l : List Nat) (i : Nat), i < l.length → mt < l.getD i 0 →
      (∀ j, j < l.length → j ≠ i → mt ≤ l.getD j 0) → l.length * mt < l.sum
  | [], i, h, _, _ => by simp at h
  | x :: xs, 0, _, hi, hall => by
      have ih := sum_lower mt xs
        (fun j hj => hall (j + 1) (by simpa using hj) (by omega))
      simp only [List.getD_cons_zero] at hi
      simp only [List.length_cons, List.sum_cons]
      calc (xs.length + 1) * mt = mt + xs.length * mt := by ring
        _ < x + xs.sum := by omega
  | x :: xs, i + 1, h, hi, hall => by
      have hx : mt ≤ x := hall 0 (by simp) (by omega)
      have ih := sum_lower_strict mt xs i (by simpa using Nat.lt_of_succ_lt_succ h)
        (by simpa using hi)
        (fun j hj hne => hall (j + 1) (by simpa using hj) (by omega))
      simp only [List.length_cons, List.sum_cons]
      calc (xs.length + 1) * mt = mt + xs.length * mt := by ring
        _ < x + xs.sum := by omega

theorem map_length_getD (groups : List (List Address)) (j : Nat) (hj : j < groups.length) :
    (groups.map List.length).getD j 0 = (groups.getD j []).length := by
  rw [List.getD_eq_getElem _ _ (by simpa using hj), List.getD_eq_getElem _ _ hj]
  simp

theorem exists_target (groups : List (List Address)) (mt : Nat)
    (htot : groups.flatten.length ≤ groups.length * mt)
    (mo : Nat) (hmo : mo < groups.length) (hover : mt < (groups.getD mo []).length) :
    ∃ t, t < groups.length ∧ t ≠ mo ∧ (groups.getD t []).length < mt := by
  by_contra hcon
  push_neg at hcon
  have hstrict := sum_lower_strict mt (groups.map List.length) mo
    (by simpa using hmo) (by rw [map_length_getD groups mo hmo]; exact hover)
    (fun j hj hne => by
      rw [map_length_getD groups j (by simpa using hj)]
      exact hcon j (by simpa using hj) hne)
  rw [List.length_flatten] at htot
  simp only [List.length_map] at hstrict
  omega

theorem loopF_exit (dist : Coordinate → Coordinate → ℚ) (mt : Nat) :
    ∀ (fuel c : Nat) (gs g' : List (List Address)) (c' : Nat), 1000 ≤ c + fuel →
      redistributeLoopF dist mt fuel c gs = some (g', c') →
      ((g'.any fun g => decide (mt < g.length)) = false ∨ 1000 ≤ c')
  | 0, c, gs, g', c', hcf, h => by
      rw [redistributeLoopF] at h
      simp only [Option.some.injEq, Prod.mk.injEq] at h
      right
      omega
  | fuel + 1, c, gs, g', c', hcf, h => by
      rw [redistributeLoopF] at h
      split at h
      · rcases hs : loopStep dist gs mt with _ | g1
        · rw [hs] at h; exact absurd h (by simp)
        · rw [hs] at h
          exact loopF_exit dist mt fuel (c + 1) g1 g' c' (by omega) h
      · simp only [Option.some.injEq, Prod.mk.injEq] at h
        rename_i hguard
        rw [Bool.and_eq_true, not_and] at hguard
        obtain ⟨rfl, rfl⟩ := h
        by_cases hany : (gs.any fun g => decide (mt < g.length)) = true
        · right
          have := hguard hany
          simp only [decide_eq_true_eq] at this
          omega
        · left
          exact Bool.not_eq_true _ ▸ hany

theorem loopF_perm (dist : Coordinate → Coordinate → ℚ) (mt : Nat) :
    ∀ (fuel c : Nat) (gs g' : List (List Address)) (c' : Nat),
      redistributeLoopF dist mt fuel c gs = some (g', c') →
      g'.flatten.Perm gs.flatten
  | 0, c, gs, g', c', h => by
      rw [redistributeLoopF] at h
      simp only [Option.some.injEq, Prod.mk.injEq] at h
      rw [h.1]
  | fuel + 1, c, gs, g', c', h => by
      rw [redistributeLoopF] at h
      split at h
      · rename_i hguard
        rw [Bool.and_eq_true] at hguard
        rcases hs : loopStep dist gs mt with _ | g1
        · rw [hs] at h; exact absurd h (by simp)
        · rw [hs] at h
          exact (loopF_perm dist mt fuel (c + 1) g1 g' c' h).trans
            (loopStep_perm dist gs mt g1 hguard.1 hs)
      · simp only [Option.some.injEq, Prod.mk.injEq] at h
        rw [h.1]

theorem loopF_run (dist : Coordinate → Coordinate → ℚ) (mt : Nat) :
    ∀ (e : Nat) (gs : List (List Address)) (c fuel : Nat),
      excess gs mt = e →
      gs.flatten.length ≤ gs.length * mt →
      fuel + c = 1000 →
      c + e ≤ 1000 →
      ∃ g', redistributeLoopF dist mt fuel c gs = some (g', c + e) ∧
        excess g' mt = 0 := by
  intro e
  induction e with
  | zero =>
      intro gs c fuel he _ _ _
      have hany : (gs.any fun g => decide (mt < g.length)) = false :=
        (excess_eq_zero_iff gs mt).mp he
      refine ⟨gs, ?_, he⟩
      rw [Nat.add_zero]
      match fuel with
      | 0 => rw [redistributeLoopF]
      | fuel + 1 =>
          rw [redistributeLoopF, hany]
          simp
  | succ e' ih =>
      intro gs c fuel he htot hfc hce
      have hany : (gs.any fun g => decide (mt < g.length)) = true := by
        by_contra hf
        have := (excess_eq_zero_iff gs mt).mpr (Bool.not_eq_true _ ▸ hf)
        omega
      have hc : c < 1000 := by omega
      obtain ⟨f, rfl⟩ : ∃ f, fuel = f + 1 := by
        cases fuel with
        | zero => omega
        | succ f => exact ⟨f, rfl⟩
      have hmo := mostOverloaded_spec gs mt hany
      obtain ⟨t0, ht0, hne0, hlt0⟩ :=
        exists_target gs mt htot (mostOverloaded gs mt) hmo.1 hmo.2
      have hsrc : gs.getD (mostOverloaded gs mt) [] ≠ [] := by
        intro hnil
        rw [hnil] at hmo
        simp at hmo
      have hsome := pickBest_isSome dist gs mt (mostOverloaded gs mt) hsrc t0 ht0 hne0 hlt0
      obtain ⟨⟨a, t, d⟩, hpb⟩ := Option.isSome_iff_exists.mp hsome
      obtain ⟨hmem, ht, hlt, hne⟩ := pickBest_spec dist gs mt _ a t d hpb
      have hstep : loopStep dist gs mt = some (applyMove gs (mostOverloaded gs mt) t a) := by
        rw [loopStep, hpb]
      have hexc : excess (applyMove gs (mostOverloaded gs mt) t a) mt + 1 = e' + 1 := by
        rw [← he]
        exact excess_applyMove gs _ t a mt hmo.1 ht hne hmo.2 hlt hmem
      have hperm := applyMove_flatten_perm gs (mostOverloaded gs mt) t a hmo.1 ht hmem
      have hlen := applyMove_length gs (mostOverloaded gs mt) t a
      have htot' : (applyMove gs (mostOverloaded gs mt) t a).flatten.length ≤
          (applyMove gs (mostOverloaded gs mt) t a).length * mt := by
        rw [hperm.length_eq, hlen]
        exact htot
      obtain ⟨g', hrun, hzero⟩ := ih (applyMove gs (mostOverloaded gs mt) t a)
        (c + 1) f (by omega) htot' (by omega) (by omega)
      refine ⟨g', ?_, hzero⟩
      rw [redistributeLoopF, hany, if_pos (by simp [hc]), hstep]
      show redistributeLoopF dist mt f (c + 1) (applyMove gs (mostOverloaded gs mt) t a) =
        some (g', c + (e' + 1))
      rw [hrun]
      congr 2
      omega

/-- Concrete addresses used to instantiate the distance-parametric theorems. -/
def addrA : Address := ⟨"1 Alder St", some ⟨1, 1⟩, 1⟩

def addrB : Address := ⟨"2 Birch St", some ⟨2, 2⟩, 2⟩

def addrC : Address := ⟨"3 Cedar St", some ⟨3, 3⟩, 3⟩

/-- C2: whenever `Clusterer._redistribute_addresses` returns normally (does
not `sys.exit`), every returned group's size is at most the capacity bound
`max_trees`.  Holds for every distance function, hence for the source's
haversine distance. -/
theorem redistribute_bounds (dist : Coordinate → Coordinate → ℚ)
    (groups : List (List Address)) (mt : Nat) (g' : List (List Address)) (c : Nat)
    (h : redistribute dist groups mt = some (g', c)) :
    ∀ g ∈ g', g.length ≤ mt := by
  rw [redistribute] at h
  split at h
  · rename_i hany
    simp only [Option.some.injEq, Prod.mk.injEq] at h
    obtain ⟨rfl, rfl⟩ := h
    intro g hg
    rw [List.any_eq_false] at hany
    have := hany g hg
    simp only [decide_eq_true_eq] at this
    omega
  · split at h
    · exact absurd h (by simp)
    · split at h
      · exact absurd h (by simp)
      · split at h
        · exact absurd h (by simp)
        · rename_i g1 c1 hl
          split at h
          · exact absurd h (by simp)
          · rename_i hc1
            simp only [Option.some.injEq, Prod.mk.injEq] at h
            obtain ⟨rfl, rfl⟩ := h
            rcases loopF_exit dist mt 1000 0 groups g1 c1 (by omega) hl with hex | hex
            · intro g hg
              rw [List.any_eq_false] at hex
              have := hex g hg
              simp only [decide_eq_true_eq] at this
              omega
            · omega

/-- Witness for C2: three addresses in group 0 with capacity 2 force one
move; the returned group holding the two remaining addresses respects the
bound. -/
theorem redistribute_bounds_witness :
    ([addrB, addrC] : List Address).length ≤ 2 :=
  redistribute_bounds distZero [[addrA, addrB, addrC], []] 2
    [[addrB, addrC], [addrA]] 1 (by decide) [addrB, addrC]
    (List.mem_cons_self _ _)

/-- C1: for every input configuration and capacity bound, the multiset union
of the groups' memberships after a successful redistribution is a permutation
of the one before (each address in exactly one group, no duplicates, no
losses); and each loop iteration moves exactly one address from one group to
one other group, leaving all other groups untouched. -/
theorem redistribute_preserves_membership :
    (∀ (dist : Coordinate → Coordinate → ℚ) (groups : List (List Address)) (mt : Nat)
        (g' : List (List Address)) (c : Nat),
        redistribute dist groups mt = some (g', c) →
        g'.flatten.Perm groups.flatten) ∧
    (∀ (dist : Coordinate → Coordinate → ℚ) (groups : List (List Address)) (mt : Nat)
        (g' : List (List Address)),
        (groups.any fun g => decide (mt < g.length)) = true →
        loopStep dist groups mt = some g' →
        ∃ a i j, i < groups.length ∧ j < groups.length ∧ j ≠ i ∧
          a ∈ groups.getD i [] ∧
          g'.getD i [] = (groups.getD i []).erase a ∧
          g'.getD j [] = groups.getD j [] ++ [a] ∧
          ∀ k, k ≠ i → k ≠ j → g'.getD k [] = groups.getD k []) := by
  constructor
  · intro dist groups mt g' c h
    rw [redistribute] at h
    split at h
    · simp only [Option.some.injEq, Prod.mk.injEq] at h
      obtain ⟨rfl, rfl⟩ := h
      exact List.Perm.refl _
    · split at h
      · exact absurd h (by simp)
      · split at h
        · exact absurd h (by simp)
        · split at h
          · exact absurd h (by simp)
          · rename_i g1 c1 hl
            split at h
            · exact absurd h (by simp)
            · simp only [Option.some.injEq, Prod.mk.injEq] at h
              obtain ⟨rfl, rfl⟩ := h
              exact loopF_perm dist mt 1000 0 groups g1 c1 hl
  · intro dist groups mt g' hany hstep
    obtain ⟨a, t, d, hpb, rfl⟩ := loopStep_elim dist groups mt g' hstep
    obtain ⟨hmem, ht, _, hne⟩ := pickBest_spec dist groups mt _ a t d hpb
    have hmo := mostOverloaded_spec groups mt hany
    refine ⟨a, mostOverloaded groups mt, t, hmo.1, ht, hne, hmem, ?_, ?_, ?_⟩
    · rw [applyMove_eq groups _ t a hne,
        getD_set_ne _ _ _ hne,
        getD_set_self _ _ _ _ hmo.1]
    · rw [applyMove_eq groups _ t a hne,
        getD_set_self _ _ _ _ (by simpa using ht)]
    · intro k hki hkj
      rw [applyMove_eq groups _ t a hne,
        getD_set_ne _ _ _ (fun hmt => hkj hmt.symm),
        getD_set_ne _ _ _ (fun hmt => hki hmt.symm)]

/-- Witness for C1: a concrete successful redistribution whose flattened
output is a permutation of the flattened input. -/
theorem redistribute_preserves_membership_witness :
    (([[addrB], [addrA]] : List (List Address)).flatten).Perm
      (([[addrA, addrB], []] : List (List Address)).flatten) :=
  redistribute_preserves_membership.1 distZero [[addrA, addrB], []] 1
    [[addrB], [addrA]] 1 (by decide)

/-- C7: with at least one group above the bound, `_redistribute_addresses`
fails before performing any move exactly when only one group exists or every
group is at/above the bound; with no group above the bound it returns the
groups unchanged.  The last conjunct shows that outside the two immediate
failure conditions the outcome is entirely that of the move loop. -/
theorem redistribute_precheck (dist : Coordinate → Coordinate → ℚ)
    (groups : List (List Address)) (mt : Nat) :
    ((∀ g ∈ groups, g.length ≤ mt) → redistribute dist groups mt = some (groups, 0)) ∧
    ((∃ g ∈ groups, mt < g.length) →
      (groups.length = 1 ∨ ∀ g ∈ groups, mt ≤ g.length) →
      redistribute dist groups mt = none) ∧
    ((∃ g ∈ groups, mt < g.length) → groups.length ≠ 1 →
      (∃ g ∈ groups, g.length < mt) →
      redistribute dist groups mt =
        (match redistributeLoopF dist mt 1000 0 groups with
         | none => none
         | some (g', c) => if 1000 ≤ c then none else some (g', c))) := by
  refine ⟨?_, ?_, ?_⟩
  · intro hall
    have hany : (groups.any fun g => decide (mt < g.length)) = false := by
      rw [List.any_eq_false]
      intro g hg
      simp only [decide_eq_true_eq, not_lt]
      exact hall g hg
    rw [redistribute, if_pos hany]
  · intro hex hcond
    have hany : (groups.any fun g => decide (mt < g.length)) = true := by
      rw [List.any_eq_true]
      obtain ⟨g, hg, hlt⟩ := hex
      exact ⟨g, hg, by simpa using hlt⟩
    rw [redistribute, if_neg (by simp [hany])]
    rcases hcond with hone | hsat
    · rw [if_pos hone]
    · by_cases hone : groups.length = 1
      · rw [if_pos hone]
      · rw [if_neg hone, if_pos ?_]
        rw [List.all_eq_true]
        intro g hg
        simpa using hsat g hg
  · intro hex hone hroom
    have hany : (groups.any fun g => decide (mt < g.length)) = true := by
      rw [List.any_eq_true]
      obtain ⟨g, hg, hlt⟩ := hex
      exact ⟨g, hg, by simpa using hlt⟩
    have hall : ¬ (groups.all fun g => decide (mt ≤ g.length)) = true := by
      rw [List.all_eq_true]
      intro hcon
      obtain ⟨g, hg, hlt⟩ := hroom
      have := hcon g hg
      simp only [decide_eq_true_eq] at this
      omega
    rw [redistribute, if_neg (by simp [hany]), if_neg hone, if_neg hall]

/-- Witness for C7: a single overloaded group with no peer fails at once. -/
theorem redistribute_precheck_witness :
    redistribute distZero [[addrA, addrB]] 1 = none :=
  (redistribute_precheck distZero [[addrA, addrB]] 1).2.1
    ⟨[addrA, addrB], by decide, by decide⟩ (Or.inl (by decide))

/-- The failing input for the iteration-cap check: one group of 1001 copies
of the same address (pydantic equality is by fields, and `list.remove`
removes the first equal element, so identical copies behave like the
embedding's `List.erase`) and 1000 empty peer groups, with `max_trees = 1`.
Every coordinate is the same, so the source's haversine distance returns
exactly `0.0` (its equality short-circuit) wherever it is consulted, which
is why `distZero` reproduces the source's run on this input. -/
def capAddr : Address := ⟨"4 Dogwood St", some ⟨0, 0⟩, 1⟩

def capGroups : List (List Address) :=
  List.replicate 1001 capAddr :: List.replicate 1000 []

theorem excess_cap_shape (n m : Nat) (a : Address) :
    excess (List.replicate (n + 1) a :: List.replicate m ([] : List Address)) 1 = n := by
  rw [excess, List.map_cons, List.map_replicate, List.sum_cons, List.sum_replicate,
    List.length_replicate, List.length_nil]
  simp

theorem total_cap_shape (n m : Nat) (a : Address) (h : n ≤ m) :
    (List.replicate (n + 1) a :: List.replicate m ([] : List Address)).flatten.length ≤
      (List.replicate (n + 1) a :: List.replicate m ([] : List Address)).length * 1 := by
  rw [List.length_flatten, List.map_cons, List.map_replicate, List.sum_cons,
    List.sum_replicate, List.length_replicate, List.length_nil, List.length_cons,
    List.length_replicate]
  simp
  omega

theorem capGroups_any : (capGroups.any fun g => decide (1 < g.length)) = true := by
  rw [capGroups, List.any_cons, List.length_replicate]
  norm_num

theorem capGroups_len : capGroups.length ≠ 1 := by
  rw [capGroups, List.length_cons, List.length_replicate]
  norm_num

theorem all_replicate_nil_sizes (k : Nat) :
    ((List.replicate (k + 1) ([] : List Address)).all fun g => decide (1 ≤ g.length))
      = false := by
  rw [List.replicate_succ, List.all_cons, List.length_nil]
  norm_num

theorem capGroups_not_all : ¬ (capGroups.all fun g => decide (1 ≤ g.length)) = true := by
  rw [capGroups, List.all_cons, all_replicate_nil_sizes]
  norm_num

set_option maxRecDepth 8000 in
/-- C4 is violated by the code: on `capGroups` with bound 1, the loop
performs exactly 1000 moves, after which every group's size is within the
bound, yet `_redistribute_addresses` still takes the
`iteration_count >= max_iterations` exit and fails. -/
theorem redistribute_cap_spurious_failure :
    (∃ gFinal, redistributeLoopF distZero 1 1000 0 capGroups = some (gFinal, 1000) ∧
      ∀ g ∈ gFinal, g.length ≤ 1) ∧
    redistribute distZero capGroups 1 = none := by
  have hexc : excess capGroups 1 = 1000 := excess_cap_shape 1000 1000 capAddr
  have htot : capGroups.flatten.length ≤ capGroups.length * 1 :=
    total_cap_shape 1000 1000 capAddr (le_refl 1000)
  obtain ⟨gFinal, hrun, hzero⟩ :=
    loopF_run distZero 1 1000 capGroups 0 1000 hexc htot (by omega) (by omega)
  rw [Nat.zero_add] at hrun
  have hfinal : ∀ g ∈ gFinal, g.length ≤ 1 := by
    intro g hg
    have hany := (excess_eq_zero_iff gFinal 1).mp hzero
    rw [List.any_eq_false] at hany
    have := hany g hg
    simp only [decide_eq_true_eq] at this
    omega
  refine ⟨⟨gFinal, hrun, hfinal⟩, ?_⟩
  rw [redistribute, if_neg (by simp [capGroups_any]), if_neg capGroups_len,
    if_neg capGroups_not_all, hrun]
  simp

/-- The unordered vertex pairs of the complete graph on `n` vertices, as
built by the double loop `for i in range(n): for j in range(i+1, n)` in
`calculate_mst_distance`. -/
def allPairs (n : Nat) : List (Nat × Nat) :=
  (List.range n).flatMap
    (fun i => ((List.range n).filter (fun j => decide (i < j))).map (fun j => (i, j)))

/-- One expansion step of reachability over an edge list. -/
def reachStep (n : Nat) (es : List (Nat × Nat)) (reach : List Nat) : List Nat :=
  (List.range n).filter (fun v =>
    decide (v ∈ reach) ||
      es.any (fun e =>
        (decide (e.1 ∈ reach) && decide (e.2 = v)) ||
          (decide (e.2 ∈ reach) && decide (e.1 = v))))

/-- Vertices reachable from vertex 0 in at most `k` expansion steps. -/
def reachSet (n : Nat) (es : List (Nat × Nat)) : Nat → List Nat
  | 0 => [0]
  | k + 1 => reachStep n es (reachSet n es k)

/-- Whether an edge list connects all of `0..n-1` (n expansion steps suffice). -/
def connects (n : Nat) (es : List (Nat × Nat)) : Bool :=
  (List.range n).all (fun v => decide (v ∈ reachSet n es n))

/-- Modelled from the spec: `scipy.sparse.csgraph.minimum_spanning_tree` is
external to this repository.  Per the spec the code "build[s] the complete
weighted graph over all pairs (GeoDistance as weight), compute[s] a minimum
spanning tree, return[s] the sum of its edge weights", so the call is
modelled by its defining property: the spanning edge sets of the complete
graph are the `n-1`-edge subsets connecting all vertices, and the returned
value is the minimum total weight among them. -/
def spanningEdgeSets (n : Nat) : List (List (Nat × Nat)) :=
  (allPairs n).sublists.filter (fun es => decide (es.length = n - 1) && connects n es)

/-- Minimum spanning tree weight of the complete graph on `n` vertices with
weight function `w` (see `spanningEdgeSets`). -/
def mstWeight (n : Nat) (w : Nat → Nat → ℚ) : ℚ :=
  match (spanningEdgeSets n).map (fun es => (es.map (fun e => w e.1 e.2)).sum) with
  | [] => 0
  | x :: xs => xs.foldl min x

/-- A placeholder address used only as the `getD` default (never selected at
in-range indices). -/
def dAddr : Address := ⟨"-", none, 0⟩

/-- `mst.calculate_mst_distance` (mst.py lines 10–49): 0 or 1 addresses give
`0.0` (before any coordinate check); then a `ValueError` (modelled `none`) if
any address lacks a coordinate; exactly 2 addresses give the distance between
them directly; otherwise the MST total over the complete pairwise graph. -/
def calculate_mst_distance (dist : Coordinate → Coordinate → ℚ)
    (addresses : List Address) : Option ℚ :=
  if addresses.length ≤ 1 then some 0
  else if addresses.any (fun a => a.coordinate.isNone) then none
  else if addresses.length = 2 then
    some (dist (coordD (addresses.getD 0 dAddr)) (coordD (addresses.getD 1 dAddr)))
  else
    some (mstWeight addresses.length
      (fun i j => dist (coordD (addresses.getD i dAddr)) (coordD (addresses.getD j dAddr))))

/-- C5: `calculate_mst_distance` returns 0 for 0 or 1 addresses, the direct
distance for exactly 2 addresses, and for 3 addresses the minimum spanning
tree total of the complete pairwise graph; whenever the 0–2 leg dominates
both adjacent legs (as with the collinear 47.5/47.6/47.7 latitudes on one
longitude), that total is the sum of the two adjacent legs, not the
end-to-end diagonal. -/
theorem mst_distance_cases (dist : Coordinate → Coordinate → ℚ) :
    (∀ addresses : List Address, addresses.length ≤ 1 →
        calculate_mst_distance dist addresses = some 0) ∧
    (∀ (a b : Address) (ca cb : Coordinate),
        a.coordinate = some ca → b.coordinate = some cb →
        calculate_mst_distance dist [a, b] = some (dist ca cb)) ∧
    (∀ (a0 a1 a2 : Address) (c0 c1 c2 : Coordinate),
        a0.coordinate = some c0 → a1.coordinate = some c1 → a2.coordinate = some c2 →
        dist c0 c1 ≤ dist c0 c2 → dist c1 c2 ≤ dist c0 c2 →
        calculate_mst_distance dist [a0, a1, a2] = some (dist c0 c1 + dist c1 c2)) := by
  refine ⟨?_, ?_, ?_⟩
  · intro addresses hlen
    rw [calculate_mst_distance, if_pos hlen]
  · intro a b ca cb ha hb
    rw [calculate_mst_distance]
    rw [if_neg (by simp), if_neg (by simp [ha, hb]), if_pos (by simp)]
    simp [coordD, ha, hb]
  · intro a0 a1 a2 c0 c1 c2 h0 h1 h2 hd1 hd2
    rw [calculate_mst_distance]
    rw [if_neg (by simp), if_neg (by simp [h0, h1, h2]), if_neg (by simp)]
    have hlen3 : ([a0, a1, a2] : List Address).length = 3 := rfl
    have h3 : spanningEdgeSets 3 =
        [[(0, 1), (0, 2)], [(0, 1), (1, 2)], [(0, 2), (1, 2)]] := by decide
    rw [hlen3, mstWeight, h3]
    simp only [List.map_cons, List.map_nil, List.sum_cons, List.sum_nil,
      List.foldl_cons, List.foldl_nil, List.getD_cons_zero, List.getD_cons_succ]
    simp only [coordD, h0, h1, h2, Option.getD_some, add_zero]
    have hm1 : (dist c0 c1 + dist c0 c2) ⊓ (dist c0 c1 + dist c1 c2) =
        dist c0 c1 + dist c1 c2 := min_eq_right (by linarith)
    have hm2 : (dist c0 c1 + dist c1 c2) ⊓ (dist c0 c2 + dist c1 c2) =
        dist c0 c1 + dist c1 c2 := min_eq_left (by linarith)
    rw [hm1, hm2]

/-- Witness for C5: the spec's three collinear points at latitudes
47.5/47.6/47.7 on longitude −122, with a latitude-difference metric for
which the theorem's dominance hypotheses hold (as they do for haversine on
these points: the end-to-end leg dominates both adjacent legs); the MST
total is 1/10 + 1/10 = 1/5, the sum of the adjacent legs. -/
theorem mst_distance_cases_witness :
    calculate_mst_distance (fun c c' => c'.latitude - c.latitude)
      [⟨"10 Fir St", some ⟨95/2, -122⟩, 1⟩, ⟨"11 Fir St", some ⟨238/5, -122⟩, 2⟩,
        ⟨"12 Fir St", some ⟨477/10, -122⟩, 3⟩] = some (1/5) := by
  have h := (mst_distance_cases (fun c c' => c'.latitude - c.latitude)).2.2
    ⟨"10 Fir St", some ⟨95/2, -122⟩, 1⟩ ⟨"11 Fir St", some ⟨238/5, -122⟩, 2⟩
    ⟨"12 Fir St", some ⟨477/10, -122⟩, 3⟩
    ⟨95/2, -122⟩ ⟨238/5, -122⟩ ⟨477/10, -122⟩ rfl rfl rfl (by norm_num) (by norm_num)
  rw [h]
  norm_num

/-- C6 is violated as stated: a single address without a coordinate takes the
`len(addresses) <= 1` early return and yields `0.0` with no error, although
an address in the list has no resolved coordinate. -/
theorem mst_missing_coordinate_no_error :
    (⟨"5 Elm St", none, 1⟩ : Address).coordinate = none ∧
    calculate_mst_distance distZero [⟨"5 Elm St", none, 1⟩] = some 0 :=
  ⟨rfl, rfl⟩

/-- C6 (amended): `calculate_mst_distance` raises exactly when the list has
at least two addresses and some address lacks a resolved coordinate. -/
theorem mst_error_iff (dist : Coordinate → Coordinate → ℚ)
    (addresses : List Address) :
    calculate_mst_distance dist addresses = none ↔
      2 ≤ addresses.length ∧ ∃ a ∈ addresses, a.coordinate = none := by
  rw [calculate_mst_distance]
  split
  · rename_i hlen
    constructor
    · intro h
      exact absurd h (by simp)
    · rintro ⟨h2, -⟩
      omega
  · rename_i hlen
    split
    · rename_i hany
      constructor
      · intro _
        refine ⟨by omega, ?_⟩
        rw [List.any_eq_true] at hany
        obtain ⟨a, ha, hn⟩ := hany
        exact ⟨a, ha, Option.isNone_iff_eq_none.mp hn⟩
      · intro _
        rfl
    · rename_i hany
      have hf : (addresses.any fun a => a.coordinate.isNone) = false := by
        revert hany
        cases addresses.any fun a => a.coordinate.isNone <;> simp
      constructor
      · intro h
        split at h <;> exact absurd h (by simp)
      · rintro ⟨-, a, ha, hnone⟩
        rw [List.any_eq_false] at hf
        have := hf a ha
        simp [hnone] at this

/-- The single warning string of `detect_outliers` (validators.py line 33). -/
def outlierMsg : String := "Addresses more than 10 miles apart detected"

/-- The nested pair scan of `detect_outliers` (validators.py lines 29–34):
for each index `i` every `j > i` is checked; the Python early `return` on the
first far pair becomes the `||` short-circuit. -/
def hasFarPair (dist : Coordinate → Coordinate → ℚ) (thr : ℚ) : List Address → Bool
  | [] => false
  | a :: rest =>
      rest.any (fun b => decide (thr < dist (coordD a) (coordD b))) ||
        hasFarPair dist thr rest

/-- `validators.detect_outliers` (lines 13–36); `threshold_km` defaults to
`16.0` in the source.  Returns `[]` for 0 or 1 addresses, and otherwise at
most the one fixed warning. -/
def detect_outliers (dist : Coordinate → Coordinate → ℚ) (addresses : List Address)
    (threshold_km : ℚ) : List String :=
  if addresses.length ≤ 1 then []
  else if hasFarPair dist threshold_km addresses then [outlierMsg] else []

theorem hasFarPair_iff (dist : Coordinate → Coordinate → ℚ) (thr : ℚ) :
    ∀ (l : List Address),
      hasFarPair dist thr l = true ↔
        ∃ a b, List.Sublist [a, b] l ∧ thr < dist (coordD a) (coordD b)
  | [] => by
      rw [hasFarPair]
      simp only [Bool.false_eq_true, false_iff, not_exists]
      rintro a b ⟨hs, -⟩
      have := hs.length_le
      simp at this
  | x :: rest => by
      rw [hasFarPair, Bool.or_eq_true, List.any_eq_true, hasFarPair_iff dist thr rest]
      constructor
      · rintro (⟨b, hb, hd⟩ | ⟨a, b, hs, hd⟩)
        · exact ⟨x, b, by
            rw [List.sublist_cons_iff]
            exact Or.inr ⟨[b], rfl, List.singleton_sublist.mpr hb⟩,
            by simpa using hd⟩
        · exact ⟨a, b, hs.trans (List.sublist_cons_self x rest), hd⟩
      · rintro ⟨a, b, hs, hd⟩
        rw [List.sublist_cons_iff] at hs
        rcases hs with hs | ⟨r, hr, hrs⟩
        · exact Or.inr ⟨a, b, hs, hd⟩
        · left
          obtain ⟨rfl, hb⟩ : a = x ∧ r = [b] := by
            cases hr
            exact ⟨rfl, rfl⟩
          refine ⟨b, ?_, by simpa using hd⟩
          rw [hb] at hrs
          exact List.singleton_sublist.mp hrs

/-- C8: `detect_outliers` returns an empty warning list for 0 or 1
addresses; for 2 or more it returns exactly the one fixed warning when some
pair is strictly farther apart than the threshold (default 16 in the
source), and an empty list otherwise — it never emits more than one
warning. -/
theorem detect_outliers_spec (dist : Coordinate → Coordinate → ℚ)
    (addresses : List Address) (thr : ℚ) :
    (detect_outliers dist addresses thr).length ≤ 1 ∧
    (detect_outliers dist addresses thr = [outlierMsg] ↔
      ∃ a b, List.Sublist [a, b] addresses ∧ thr < dist (coordD a) (coordD b)) ∧
    (addresses.length ≤ 1 → detect_outliers dist addresses thr = []) := by
  rw [detect_outliers]
  split
  · rename_i hlen
    refine ⟨by simp, ?_, fun _ => rfl⟩
    constructor
    · intro h
      exact absurd h (by simp)
    · rintro ⟨a, b, hs, -⟩
      have := hs.length_le
      simp only [List.length_cons, List.length_nil] at this
      omega
  · rename_i hlen
    refine ⟨?_, ?_, fun h => absurd h hlen⟩
    · split <;> simp
    · split
      · rename_i hfp
        exact iff_of_true rfl ((hasFarPair_iff dist thr addresses).mp hfp)
      · rename_i hfp
        constructor
        · intro h
          exact absurd h (by simp)
        · intro hex
          exact absurd ((hasFarPair_iff dist thr addresses).mpr hex) hfp

/-- Witness for C8, mirroring the spec example: two points 15.5 apart are
flagged at threshold 15, and a single point yields no warning. -/
theorem detect_outliers_spec_witness :
    detect_outliers (fun c c' => c'.latitude - c.latitude)
      [⟨"20 Gum St", some ⟨0, 0⟩, 1⟩, ⟨"21 Gum St", some ⟨31/2, 0⟩, 2⟩] 15 =
        [outlierMsg] ∧
    detect_outliers distZero [⟨"20 Gum St", some ⟨0, 0⟩, 1⟩] 16 = [] := by
  constructor
  · exact (detect_outliers_spec (fun c c' => c'.latitude - c.latitude)
      [⟨"20 Gum St", some ⟨0, 0⟩, 1⟩, ⟨"21 Gum St", some ⟨31/2, 0⟩, 2⟩] 15).2.1.mpr
      ⟨⟨"20 Gum St", some ⟨0, 0⟩, 1⟩, ⟨"21 Gum St", some ⟨31/2, 0⟩, 2⟩,
        List.Sublist.refl _, by norm_num [coordD]⟩
  · exact (detect_outliers_spec distZero [⟨"20 Gum St", some ⟨0, 0⟩, 1⟩] 16).2.2
      (by norm_num)

/-- `validators.validate_capacity` (lines 93–117): the request is rejected
(`sys.exit(1)`, modelled as `true`) exactly when
`num_addresses >= (num_teams * max_trees) * 0.8`.  The float literal `0.8`
is embedded as the exact rational 4/5; for the integer products reaching
this check the double-precision comparison agrees with the exact one. -/
def validate_capacity (num_addresses num_teams max_trees : Nat) : Bool :=
  decide ((((num_teams * max_trees : Nat)) : ℚ) * (4 / 5) ≤ (num_addresses : ℚ))

/-- C10: the entry-point capacity validator rejects exactly the inputs with
`N ≥ 0.8·K·max_trees`, i.e. `4·K·max_trees ≤ 5·N`, even though such inputs
can still satisfy the per-team bound; in particular 20 addresses with 3
teams of capacity 8 (aggregate 24) are rejected. -/
theorem validate_capacity_spec :
    (∀ num_addresses num_teams max_trees : Nat,
        validate_capacity num_addresses num_teams max_trees = true ↔
          4 * (num_teams * max_trees) ≤ 5 * num_addresses) ∧
    validate_capacity 20 3 8 = true := by
  constructor
  · intro n k m
    rw [validate_capacity, decide_eq_true_iff]
    constructor
    · intro h
      push_cast at h
      have h5 : ((4 * (k * m) : Nat) : ℚ) ≤ ((5 * n : Nat) : ℚ) := by
        push_cast
        linarith
      exact_mod_cast h5
    · intro h
      have h5 : ((4 * (k * m) : Nat) : ℚ) ≤ ((5 * n : Nat) : ℚ) := by
        exact_mod_cast h
      push_cast at h5 ⊢
      linarith
  · rw [validate_capacity, decide_eq_true_iff]
    norm_num

/-- The coordinate array built by `cluster_addresses` (clusterer.py
lines 65–67). -/
def coordsOf (addresses : List Address) : List (ℚ × ℚ) :=
  addresses.map (fun a => ((coordD a).latitude, (coordD a).longitude))

/-- Modelled from the spec: the K-Means partition engine
(`sklearn.cluster.KMeans(n_clusters=K, random_state=seed, n_init=10)
.fit_predict`, line 69–70) is external to this repository; the spec states
"the seed deterministically drives the pseudo-random initializations:
identical seed + identical input ⇒ byte-identical output partition", so an
engine is modelled as any function of the coordinate list, the team count
and the seed. -/
abbrev KMeansFn : Type := List (ℚ × ℚ) → Nat → Nat → List Nat

/-- The label-to-team grouping of `cluster_addresses` (lines 72–74):
addresses are appended to `team_assignments[label]` in input order. -/
def teamAssignmentsOf (labels : List Nat) (addresses : List Address)
    (num_teams : Nat) : List (List Address) :=
  (List.range num_teams).map
    (fun i => (labels.zip addresses).filterMap
      (fun p => if p.1 = i then some p.2 else none))

/-- The membership-determining prefix of `Clusterer.cluster_addresses`
(lines 60–76): team-name arity check, seeded K-Means call, grouping, then
redistribution; `none` models the `ValueError` and `SystemExit` exits. -/
def clusterMemberships (dist : Coordinate → Coordinate → ℚ) (km : KMeansFn)
    (addresses : List Address) (num_teams : Nat) (team_names : List String)
    (random_seed max_trees : Nat) : Option (List (List Address)) :=
  if team_names.length < num_teams then none
  else
    (redistribute dist
      (teamAssignmentsOf (km (coordsOf addresses) num_teams random_seed)
        addresses num_teams) max_trees).map (fun p => p.1)

/-- C3: runs of `cluster_addresses` on identical addresses, team count and
seed yield identical team memberships.  The orchestration is a pure function
of the partition engine's labels, so any two engine instances that agree on
the single seeded call — which the spec requires of the external seeded
K-Means — produce identical memberships. -/
theorem clusterMemberships_deterministic (dist : Coordinate → Coordinate → ℚ)
    (km1 km2 : KMeansFn) (addresses : List Address) (num_teams : Nat)
    (team_names : List String) (seed mt : Nat)
    (h : km1 (coordsOf addresses) num_teams seed =
      km2 (coordsOf addresses) num_teams seed) :
    clusterMemberships dist km1 addresses num_teams team_names seed mt =
      clusterMemberships dist km2 addresses num_teams team_names seed mt := by
  rw [clusterMemberships, clusterMemberships, h]

/-- Witness for C3: two syntactically different engines that agree at seed
42 give identical memberships on a concrete input. -/
theorem clusterMemberships_deterministic_witness :
    clusterMemberships distZero (fun _ _ _ => [0, 0]) [addrA, addrB] 1
        ["Team 1"] 42 8 =
      clusterMemberships distZero (fun _ _ s => if s = 42 then [0, 0] else [1, 1])
        [addrA, addrB] 1 ["Team 1"] 42 8 :=
  clusterMemberships_deterministic distZero (fun _ _ _ => [0, 0])
    (fun _ _ s => if s = 42 then [0, 0] else [1, 1]) [addrA, addrB] 1
    ["Team 1"] 42 8 (by norm_num)

/-- The fixed palette `TEAM_COLORS` (clusterer.py lines 16–29), 12 labels in
source order. -/
def TEAM_COLORS : List String :=
  ["red", "green", "blue", "yellow", "cyan", "magenta", "bright_red",
   "bright_green", "bright_blue", "bright_yellow", "bright_cyan",
   "bright_magenta"]

/-- The float comparison `min_distance_to_color > best_min_distance`, where
`min_distance_to_color` may be `float("inf")` (modelled `none`) and
`best_min_distance` starts at `-1.0`. -/
def optGT : Option ℚ → Option ℚ → Bool
  | none, none => false
  | none, some _ => true
  | some _, none => false
  | some a, some b => decide (b < a)

/-- The order underlying `optGT` (`none` is `inf`, above every rational). -/
def optLE : Option ℚ → Option ℚ → Prop
  | _, none => True
  | none, some _ => False
  | some a, some b => a ≤ b

/-- The per-color running minimum of `_assign_colors_optimally`
(lines 273–281): minimum distance from `myCent` to the centroid of any team
already carrying the color, skipping teams without centroids; `none` is the
initial `float("inf")`. -/
def minDistToColor (dist : Coordinate → Coordinate → ℚ)
    (cents : Nat → Option Coordinate) (myCent : Coordinate)
    (members : List Nat) : Option ℚ :=
  members.foldl
    (fun m j =>
      match cents j with
      | some cj =>
          match m with
          | none => some (dist myCent cj)
          | some m0 => some (min m0 (dist myCent cj))
      | none => m)
    none

/-- The score the scan of lines 272–286 computes for one palette label. -/
def scoreOfColor (dist : Coordinate → Coordinate → ℚ)
    (cents : Nat → Option Coordinate) (myCent : Coordinate)
    (byColor : String → List Nat) (c : String) : Option ℚ :=
  minDistToColor dist cents myCent (byColor c)

/-- The color scan for one remaining team (lines 269–286): over the palette
in order, replace the best exactly when the score is strictly greater;
`best_color` starts as `None` and `best_min_distance` as `-1.0`. -/
def chooseColor (dist : Coordinate → Coordinate → ℚ)
    (cents : Nat → Option Coordinate) (myCent : Coordinate)
    (byColor : String → List Nat) : Option String × Option ℚ :=
  TEAM_COLORS.foldl
    (fun best color =>
      if optGT (scoreOfColor dist cents myCent byColor color) best.2 then
        (some color, scoreOfColor dist cents myCent byColor color)
      else best)
    (none, some (-1))

/-- `teams_by_color[best_color].append(team_idx)` (line 289). -/
def updateByColor (byColor : String → List Nat) (c : String) (i : Nat) :
    String → List Nat :=
  fun c' => if c' = c then byColor c ++ [i] else byColor c'

/-- The remaining-team loop of `_assign_colors_optimally` (lines 263–289):
a team without a centroid gets `TEAM_COLORS[team_idx % 12]` by round robin
and `teams_by_color` is not updated (the Python `continue`); a team with a
centroid gets the scanned best color, which is recorded in `teams_by_color`.
The `(none, _)` branch mirrors the Python `best_color is None` state, which
the nonnegative source metric never produces. -/
def assignLoop (dist : Coordinate → Coordinate → ℚ)
    (cents : Nat → Option Coordinate) :
    (String → List Nat) → List Nat → List (Option String)
  | _, [] => []
  | byColor, i :: rest =>
      match cents i with
      | none =>
          some (TEAM_COLORS.getD (i % TEAM_COLORS.length) "") ::
            assignLoop dist cents byColor rest
      | some ci =>
          match chooseColor dist cents ci byColor with
          | (none, _) => none :: assignLoop dist cents byColor rest
          | (some c, _) =>
              some c :: assignLoop dist cents (updateByColor byColor c i) rest

/-- `teams_by_color` after the direct first batch (lines 254–259): each
palette label carries the indices at which it was assigned (each exactly
one, the palette labels being distinct). -/
def initByColor : String → List Nat :=
  fun c =>
    (List.range TEAM_COLORS.length).filter
      (fun i => decide (TEAM_COLORS.getD i "" = c))

/-- `Clusterer._assign_colors_optimally` (clusterer.py lines 231–291), the
assignment listed by team index: `palette[0..K-1]` when `K ≤ 12`, otherwise
the first 12 directly and the rest by the geographic scan. -/
def assign_colors_optimally (dist : Coordinate → Coordinate → ℚ)
    (num_teams : Nat) (cents : Nat → Option Coordinate) : List (Option String) :=
  if num_teams ≤ TEAM_COLORS.length then
    (List.range num_teams).map (fun i => some (TEAM_COLORS.getD i ""))
  else
    TEAM_COLORS.map some ++
      assignLoop dist cents initByColor
        (List.range' TEAM_COLORS.length (num_teams - TEAM_COLORS.length))

/-- The color-shortage warning of `cluster_addresses` (lines 82–85). -/
def colorWarningMsg (num_teams : Nat) : String :=
  "Warning: " ++ toString num_teams ++ " teams exceed available colors " ++
    "(12). Some teams will share colors in visualization."

/-- The global warning list of `cluster_addresses` as far as colors are
concerned (lines 79–85): exactly one entry, exactly when `K > 12`. -/
def globalColorWarnings (num_teams : Nat) : List String :=
  if TEAM_COLORS.length < num_teams then [colorWarningMsg num_teams] else []

theorem optLE_trans {a b c : Option ℚ} (h1 : optLE a b) (h2 : optLE b c) : optLE a c := by
  cases a <;> cases b <;> cases c <;>
    simp only [optLE] at h1 h2 ⊢ <;> try trivial
  linarith

theorem optGT_false_iff {a b : Option ℚ} : optGT a b = false ↔ optLE a b := by
  cases a <;> cases b <;> simp [optGT, optLE, not_lt]

theorem optGT_true_le {a b : Option ℚ} (h : optGT a b = true) : optLE b a := by
  cases a <;> cases b <;> simp_all [optGT, optLE] <;> linarith

theorem optGT_true_not_le {a b : Option ℚ} (h : optGT a b = true) : ¬ optLE a b := by
  cases a <;> cases b <;> simp_all [optGT, optLE]

theorem optGT_trans {a b c : Option ℚ} (h1 : optGT a b = true) (h2 : optGT b c = true) :
    optGT a c = true := by
  cases a <;> cases b <;> cases c <;> simp_all [optGT] <;> linarith

theorem chooseScan (score : String → Option ℚ) :
    ∀ (cs : List String) (acc : Option String × Option ℚ),
      ((cs.foldl (fun best color =>
          if optGT (score color) best.2 then (some color, score color) else best) acc)
          = acc ∧
        ∀ c ∈ cs, optGT (score c) acc.2 = false) ∨
      (∃ pre c post, cs = pre ++ c :: post ∧
        (cs.foldl (fun best color =>
          if optGT (score color) best.2 then (some color, score color) else best) acc)
          = (some c, score c) ∧
        optGT (score c) acc.2 = true ∧
        ∀ c' ∈ pre, ¬ optLE (score c) (score c'))
  | [], acc => Or.inl ⟨rfl, by simp⟩
  | x :: rest, acc => by
      rw [List.foldl_cons]
      by_cases hx : optGT (score x) acc.2 = true
      · rw [if_pos hx]
        rcases chooseScan score rest (some x, score x) with ⟨heq, hall⟩ |
          ⟨pre, c, post, hsplit, heq, hgt, hpre⟩
        · right
          exact ⟨[], x, rest, rfl, heq, hx, by simp⟩
        · right
          refine ⟨x :: pre, c, post, by rw [hsplit, List.cons_append], heq,
            optGT_trans hgt hx, ?_⟩
          intro c' hc'
          rcases List.mem_cons.mp hc' with rfl | hc'
          · exact optGT_true_not_le hgt
          · exact hpre c' hc'
      · have hx' : optGT (score x) acc.2 = false := by
          revert hx
          cases optGT (score x) acc.2 <;> simp
        rw [if_neg (by simp [hx'])]
        rcases chooseScan score rest acc with ⟨heq, hall⟩ |
          ⟨pre, c, post, hsplit, heq, hgt, hpre⟩
        · left
          refine ⟨heq, ?_⟩
          intro c hc
          rcases List.mem_cons.mp hc with rfl | hc
          · exact hx'
          · exact hall c hc
        · right
          refine ⟨x :: pre, c, post, by rw [hsplit, List.cons_append], heq, hgt, ?_⟩
          intro c' hc'
          rcases List.mem_cons.mp hc' with rfl | hc'
          · intro hle
            exact optGT_true_not_le hgt (optLE_trans hle (optGT_false_iff.mp hx'))
          · exact hpre c' hc'

theorem chooseScan_growth (score : String → Option ℚ) :
    ∀ (cs : List String) (acc : Option String × Option ℚ),
      optLE acc.2 ((cs.foldl (fun best color =>
        if optGT (score color) best.2 then (some color, score color) else best) acc)).2
  | [], acc => by
      cases h : acc.2 <;> simp [optLE, h]
  | x :: rest, acc => by
      rw [List.foldl_cons]
      by_cases hx : optGT (score x) acc.2 = true
      · rw [if_pos hx]
        exact optLE_trans (optGT_true_le hx) (chooseScan_growth score rest (some x, score x))
      · rw [if_neg hx]
        exact chooseScan_growth score rest acc

theorem chooseScan_elem (score : String → Option ℚ) :
    ∀ (cs : List String) (acc : Option String × Option ℚ) (c : String), c ∈ cs →
      optLE (score c) ((cs.foldl (fun best color =>
        if optGT (score color) best.2 then (some color, score color) else best) acc)).2
  | [], _, c, hc => absurd hc (List.not_mem_nil c)
  | x :: rest, acc, c, hc => by
      rw [List.foldl_cons]
      rcases List.mem_cons.mp hc with rfl | hc'
      · by_cases hx : optGT (score c) acc.2 = true
        · rw [if_pos hx]
          exact chooseScan_growth score rest (some c, score c)
        · rw [if_neg hx]
          have hle : optLE (score c) acc.2 := optGT_false_iff.mp (by
            revert hx
            cases optGT (score c) acc.2 <;> simp)
          exact optLE_trans hle (chooseScan_growth score rest acc)
      · by_cases hx : optGT (score x) acc.2 = true
        · rw [if_pos hx]
          exact chooseScan_elem score rest (some x, score x) c hc'
        · rw [if_neg hx]
          exact chooseScan_elem score rest acc c hc'

theorem minDistToColor_shape (dist : Coordinate → Coordinate → ℚ)
    (cents : Nat → Option Coordinate) (myCent : Coordinate)
    (hd : ∀ c c', 0 ≤ dist c c') (members : List Nat) :
    minDistToColor dist cents myCent members = none ∨
      ∃ q, minDistToColor dist cents myCent members = some q ∧ 0 ≤ q := by
  rw [minDistToColor]
  have main : ∀ (L : List Nat) (acc : Option ℚ),
      (acc = none ∨ ∃ q, acc = some q ∧ 0 ≤ q) →
      ((L.foldl (fun m j =>
          match cents j with
          | some cj =>
              match m with
              | none => some (dist myCent cj)
              | some m0 => some (min m0 (dist myCent cj))
          | none => m) acc) = none ∨
        ∃ q, (L.foldl (fun m j =>
          match cents j with
          | some cj =>
              match m with
              | none => some (dist myCent cj)
              | some m0 => some (min m0 (dist myCent cj))
          | none => m) acc) = some q ∧ 0 ≤ q) := by
    intro L
    induction L with
    | nil => intro acc hacc; exact hacc
    | cons j rest ih =>
        intro acc hacc
        rw [List.foldl_cons]
        apply ih
        rcases hcj : cents j with _ | cj
        · simpa using hacc
        · rcases hacc with rfl | ⟨q, rfl, hq⟩
          · exact Or.inr ⟨dist myCent cj, rfl, hd _ _⟩
          · exact Or.inr ⟨min q (dist myCent cj), rfl, le_min hq (hd _ _)⟩
  exact main members none (Or.inl rfl)

theorem score_beats_init (dist : Coordinate → Coordinate → ℚ)
    (cents : Nat → Option Coordinate) (myCent : Coordinate)
    (byColor : String → List Nat) (hd : ∀ c c', 0 ≤ dist c c') (c : String) :
    optGT (scoreOfColor dist cents myCent byColor c) (some (-1)) = true := by
  rcases minDistToColor_shape dist cents myCent hd (byColor c) with h | ⟨q, h, hq⟩
  · rw [scoreOfColor, h]; rfl
  · rw [scoreOfColor, h, optGT]
    exact decide_eq_true (by linarith)

/-- The duplicate-color rule, as the spec words it: the chosen label
maximizes, over the palette, the minimum distance to the teams already
carrying the label, with ties resolved to the earliest palette label (every
strictly earlier label scores strictly lower). -/
theorem chooseColor_spec (dist : Coordinate → Coordinate → ℚ)
    (cents : Nat → Option Coordinate) (myCent : Coordinate)
    (byColor : String → List Nat) (hd : ∀ c c', 0 ≤ dist c c') :
    ∃ pre c post, TEAM_COLORS = pre ++ c :: post ∧
      chooseColor dist cents myCent byColor =
        (some c, scoreOfColor dist cents myCent byColor c) ∧
      (∀ c' ∈ TEAM_COLORS,
        optLE (scoreOfColor dist cents myCent byColor c')
          (scoreOfColor dist cents myCent byColor c)) ∧
      (∀ c' ∈ pre,
        ¬ optLE (scoreOfColor dist cents myCent byColor c)
          (scoreOfColor dist cents myCent byColor c')) := by
  rcases chooseScan (scoreOfColor dist cents myCent byColor) TEAM_COLORS
      (none, some (-1)) with ⟨heq, hall⟩ | ⟨pre, c, post, hsplit, heq, hgt, hpre⟩
  · have := hall "red" (by rw [TEAM_COLORS]; exact List.mem_cons_self _ _)
    rw [score_beats_init dist cents myCent byColor hd "red"] at this
    exact absurd this (by simp)
  · refine ⟨pre, c, post, hsplit, heq, ?_, hpre⟩
    intro c' hc'
    have helem := chooseScan_elem (scoreOfColor dist cents myCent byColor)
      TEAM_COLORS (none, some (-1)) c' hc'
    rw [heq] at helem
    exact helem

theorem assignLoop_length (dist : Coordinate → Coordinate → ℚ)
    (cents : Nat → Option Coordinate) :
    ∀ (L : List Nat) (byColor : String → List Nat),
      (assignLoop dist cents byColor L).length = L.length
  | [], _ => rfl
  | i :: rest, byColor => by
      rw [assignLoop]
      split
      · simp [assignLoop_length dist cents rest byColor]
      · split
        · simp [assignLoop_length dist cents rest byColor]
        · simp [assignLoop_length dist cents rest]

theorem assignLoop_getD_none (dist : Coordinate → Coordinate → ℚ)
    (cents : Nat → Option Coordinate) :
    ∀ (L : List Nat) (byColor : String → List Nat) (k : Nat), k < L.length →
      cents (L.getD k 0) = none →
      (assignLoop dist cents byColor L).getD k none =
        some (TEAM_COLORS.getD ((L.getD k 0) % TEAM_COLORS.length) "")
  | [], _, k, hk, _ => by simp at hk
  | i :: rest, byColor, 0, _, hc => by
      rw [List.getD_cons_zero] at hc
      rw [assignLoop, hc, List.getD_cons_zero, List.getD_cons_zero]
  | i :: rest, byColor, k + 1, hk, hc => by
      rw [List.getD_cons_succ] at hc
      rw [List.getD_cons_succ, assignLoop]
      split
      · rw [List.getD_cons_succ]
        exact assignLoop_getD_none dist cents rest byColor k
          (by simpa using Nat.lt_of_succ_lt_succ hk) hc
      · split
        · rw [List.getD_cons_succ]
          exact assignLoop_getD_none dist cents rest byColor k
            (by simpa using Nat.lt_of_succ_lt_succ hk) hc
        · rw [List.getD_cons_succ]
          exact assignLoop_getD_none dist cents rest _ k
            (by simpa using Nat.lt_of_succ_lt_succ hk) hc

theorem assignLoop_isSome (dist : Coordinate → Coordinate → ℚ)
    (cents : Nat → Option Coordinate) (hd : ∀ c c', 0 ≤ dist c c') :
    ∀ (L : List Nat) (byColor : String → List Nat) (k : Nat), k < L.length →
      ∃ c, (assignLoop dist cents byColor L).getD k none = some c ∧
        c ∈ TEAM_COLORS
  | [], _, k, hk => by simp at hk
  | i :: rest, byColor, 0, _ => by
      rw [assignLoop]
      split
      · refine ⟨TEAM_COLORS.getD (i % TEAM_COLORS.length) "",
          List.getD_cons_zero, ?_⟩
        have hmod : i % TEAM_COLORS.length < TEAM_COLORS.length :=
          Nat.mod_lt i (by decide)
        rw [List.getD_eq_getElem _ _ hmod]
        exact List.getElem_mem hmod
      · rename_i ci hci
        obtain ⟨pre, c, post, hsplit, heq, -, -⟩ :=
          chooseColor_spec dist cents ci byColor hd
        split
        · rename_i m hnone
          rw [heq] at hnone
          exact absurd hnone (by simp)
        · rename_i c1 m hsome
          rw [heq] at hsome
          simp only [Prod.mk.injEq, Option.some.injEq] at hsome
          refine ⟨c1, List.getD_cons_zero, ?_⟩
          rw [← hsome.1, hsplit]
          exact List.mem_append_right pre (List.mem_cons_self c post)
  | i :: rest, byColor, k + 1, hk => by
      rw [assignLoop]
      split
      · rw [List.getD_cons_succ]
        exact assignLoop_isSome dist cents hd rest byColor k
          (by simpa using Nat.lt_of_succ_lt_succ hk)
      · split
        · rw [List.getD_cons_succ]
          exact assignLoop_isSome dist cents hd rest byColor k
            (by simpa using Nat.lt_of_succ_lt_succ hk)
        · rw [List.getD_cons_succ]
          exact assignLoop_isSome dist cents hd rest _ k
            (by simpa using Nat.lt_of_succ_lt_succ hk)

/-- C9: when `num_teams ≤ 12` the palette is assigned directly in group
index order with no global warning; when `num_teams > 12` the first 12
groups get the palette directly, every group (with or without a centroid)
still receives a palette label, a group without a centroid at index `k`
gets `TEAM_COLORS[k % 12]` by round robin, exactly one color-shortage
warning is emitted, and each scanned group receives the label maximizing
the minimum distance to the groups already carrying it, ties resolving to
the earliest palette label.  The hypothesis is nonnegativity of the metric,
which the source's haversine distance satisfies. -/
theorem assign_colors_optimally_spec (dist : Coordinate → Coordinate → ℚ)
    (num_teams : Nat) (cents : Nat → Option Coordinate)
    (hd : ∀ c c', 0 ≤ dist c c') :
    (num_teams ≤ TEAM_COLORS.length →
      assign_colors_optimally dist num_teams cents =
        (List.range num_teams).map (fun i => some (TEAM_COLORS.getD i "")) ∧
      globalColorWarnings num_teams = []) ∧
    (TEAM_COLORS.length < num_teams →
      (assign_colors_optimally dist num_teams cents).length = num_teams ∧
      (assign_colors_optimally dist num_teams cents).take TEAM_COLORS.length =
        TEAM_COLORS.map some ∧
      (∀ k, TEAM_COLORS.length ≤ k → k < num_teams → cents k = none →
        (assign_colors_optimally dist num_teams cents).getD k none =
          some (TEAM_COLORS.getD (k % TEAM_COLORS.length) "")) ∧
      (∀ k, k < num_teams →
        ∃ c, (assign_colors_optimally dist num_teams cents).getD k none = some c ∧
          c ∈ TEAM_COLORS) ∧
      globalColorWarnings num_teams = [colorWarningMsg num_teams]) ∧
    (∀ (myCent : Coordinate) (byColor : String → List Nat),
      ∃ pre c post, TEAM_COLORS = pre ++ c :: post ∧
        (chooseColor dist cents myCent byColor).1 = some c ∧
        (∀ c' ∈ TEAM_COLORS,
          optLE (scoreOfColor dist cents myCent byColor c')
            (scoreOfColor dist cents myCent byColor c)) ∧
        (∀ c' ∈ pre,
          ¬ optLE (scoreOfColor dist cents myCent byColor c)
            (scoreOfColor dist cents myCent byColor c'))) := by
  have hTC : TEAM_COLORS.length = 12 := rfl
  refine ⟨?_, ?_, ?_⟩
  · intro hK
    constructor
    · rw [assign_colors_optimally, if_pos hK]
    · rw [globalColorWarnings, if_neg (by omega)]
  · intro hK
    have hnotle : ¬ num_teams ≤ TEAM_COLORS.length := by omega
    have hmaplen : (TEAM_COLORS.map some).length = TEAM_COLORS.length :=
      List.length_map _ _
    refine ⟨?_, ?_, ?_, ?_, ?_⟩
    · rw [assign_colors_optimally, if_neg hnotle]
      rw [List.length_append, hmaplen,
        assignLoop_length dist cents _ initByColor, List.length_range']
      omega
    · rw [assign_colors_optimally, if_neg hnotle]
      exact List.take_left' hmaplen
    · intro k hk12 hkK hck
      rw [assign_colors_optimally, if_neg hnotle]
      rw [List.getD_append_right _ _ _ _ (by omega)]
      have hkl : k - (TEAM_COLORS.map some).length <
          (List.range' TEAM_COLORS.length (num_teams - TEAM_COLORS.length)).length := by
        rw [List.length_range']
        omega
      have hidx : (List.range' TEAM_COLORS.length
          (num_teams - TEAM_COLORS.length)).getD
            (k - (TEAM_COLORS.map some).length) 0 = k := by
        rw [List.getD_eq_getElem _ _ hkl, List.getElem_range']
        omega
      rw [assignLoop_getD_none dist cents _ initByColor _ hkl (by rw [hidx]; exact hck),
        hidx]
    · intro k hkK
      rw [assign_colors_optimally, if_neg hnotle]
      by_cases hk12 : k < (TEAM_COLORS.map some).length
      · rw [List.getD_append _ _ _ _ hk12]
        have hk12' : k < TEAM_COLORS.length := by omega
        refine ⟨TEAM_COLORS.getD k "", ?_, ?_⟩
        · rw [List.getD_eq_getElem _ _ hk12, List.getElem_map,
            List.getD_eq_getElem _ _ hk12']
        · rw [List.getD_eq_getElem _ _ hk12']
          exact List.getElem_mem hk12'
      · rw [List.getD_append_right _ _ _ _ (by omega)]
        apply assignLoop_isSome dist cents hd
        rw [List.length_range']
        omega
    · rw [globalColorWarnings, if_pos hK]
  · intro myCent byColor
    obtain ⟨pre, c, post, hsplit, heq, hmax, hpre⟩ :=
      chooseColor_spec dist cents myCent byColor hd
    exact ⟨pre, c, post, hsplit, by rw [heq], hmax, hpre⟩

/-- Witness for C9: three teams against the 12-label palette receive the
first three labels in order and no warning is emitted. -/
theorem assign_colors_optimally_spec_witness :
    assign_colors_optimally distZero 3 (fun _ => none) =
      [some "red", some "green", some "blue"] ∧
    globalColorWarnings 3 = [] := by
  have h := (assign_colors_optimally_spec distZero 3 (fun _ => none)
    (fun _ _ => le_refl 0)).1 (by decide)
  exact ⟨by rw [h.1]; rfl, h.2⟩
